import Mathlib

/-!
Verification of the Nara-Chart client-side trend-analytics pipeline
(the `TrendChart` component of the front end).  The numeric smoothing,
forecasting and statistics helpers and the `data` computation of the
component are shallowly embedded below; JavaScript numbers are modelled
as rationals, `null`/`undefined` and `NaN` as explicit constructors, and
the exception thrown by `toISOString()` on an invalid date as `Except`.
-/

namespace NaraChart

/-- A JavaScript value as it occurs in the numeric fields of bid records
and chart points: a finite number, `null` (also covering `undefined`,
which the source only distinguishes through the loose `== null` check),
or `NaN`.  String-valued fields do not occur on the wire contract of the
bid service and are outside the model. -/
inductive JSVal where
  | num (q : Rat)
  | null
  | nan
deriving DecidableEq

/-- The guard `value == null || isNaN(value)` used by the smoothers,
returning the numeric payload when the value is a usable number:
`null`/`undefined` are loosely equal to `null`, and `NaN` fails the
`isNaN` test. -/
def jsValidQ : JSVal → Option Rat
  | .num q => some q
  | .null => none
  | .nan => none

/-- One update of the running exponential average, mirroring
`if (ema === null) { ema = value } else { ema = alpha*value + (1-alpha)*ema }`. -/
def emaUpdate (alpha q : Rat) : Option Rat → Rat
  | none => q
  | some e => alpha * q + (1 - alpha) * e

/-- The body of `calculateEMA`: a pass over the values carrying the
mutable `ema` state (`none` until the first valid value seeds it).
Invalid inputs emit `null` and leave the state untouched. -/
def emaFold (alpha : Rat) : Option Rat → List JSVal → List (Option Rat)
  | _, [] => []
  | ema, v :: vs =>
    match jsValidQ v with
    | none => none :: emaFold alpha ema vs
    | some q => some (emaUpdate alpha q ema) :: emaFold alpha (some (emaUpdate alpha q ema)) vs

/-- `calculateEMA(data, key, span = 10)` of the source, applied to the
already-projected list `data.map(d => d[key])`. -/
def calculateEMA (values : List JSVal) (span : Nat := 10) : List (Option Rat) :=
  emaFold (2 / ((span : Rat) + 1)) none values

/-- The last non-`null` entry of an output series. -/
def lastValid (out : List (Option Rat)) : Option Rat :=
  (out.filterMap id).getLast?

/-- First-of-two-options, mirroring how a running state is superseded by
any later computed value. -/
def orDefault (a b : Option Rat) : Option Rat :=
  match a with
  | some x => some x
  | none => b

/-- The state of the running average after consuming a prefix of the
input (specification-side description of the fold state). -/
def emaStateAfter (alpha : Rat) (st : Option Rat) (l : List JSVal) : Option Rat :=
  l.foldl (fun s v =>
    match jsValidQ v with
    | none => s
    | some q => some (emaUpdate alpha q s)) st

lemma getLast?_cons_getD {α : Type _} (a : α) (l : List α) :
    (a :: l).getLast? = some (l.getLast?.getD a) := by
  induction l generalizing a with
  | nil => rfl
  | cons b bs ih => rw [List.getLast?_cons_cons, ih b]; simp [ih b]

lemma lastValid_nil : lastValid [] = none := rfl

lemma lastValid_cons_none (l : List (Option Rat)) :
    lastValid (none :: l) = lastValid l := by
  simp [lastValid]

lemma lastValid_cons_some (e : Rat) (l : List (Option Rat)) :
    lastValid (some e :: l) = some ((lastValid l).getD e) := by
  simp only [lastValid, List.filterMap_cons, id_eq]
  exact getLast?_cons_getD e (l.filterMap id)

lemma orDefault_some_left (x : Rat) (b : Option Rat) :
    orDefault (some x) b = some x := rfl

lemma orDefault_none_right (a : Option Rat) : orDefault a none = a := by
  cases a <;> rfl

lemma emaStateAfter_cons (alpha : Rat) (st : Option Rat) (v : JSVal) (l : List JSVal) :
    emaStateAfter alpha st (v :: l) =
      emaStateAfter alpha
        (match jsValidQ v with
         | none => st
         | some q => some (emaUpdate alpha q st)) l := by
  simp [emaStateAfter, List.foldl_cons]

lemma emaFold_length (alpha : Rat) (st : Option Rat) (vals : List JSVal) :
    (emaFold alpha st vals).length = vals.length := by
  induction vals generalizing st with
  | nil => rfl
  | cons v vs ih =>
    cases hv : jsValidQ v <;> simp [emaFold, hv, ih]

lemma emaFold_get? (alpha : Rat) (vals : List JSVal) :
    ∀ (st : Option Rat) (i : Nat),
      (emaFold alpha st vals).get? i =
        (vals.get? i).map (fun v =>
          match jsValidQ v with
          | none => none
          | some q => some (emaUpdate alpha q (emaStateAfter alpha st (vals.take i)))) := by
  induction vals with
  | nil => intro st i; simp [emaFold]
  | cons v vs ih =>
    intro st i
    cases i with
    | zero =>
      cases hv : jsValidQ v <;> simp [emaFold, hv, emaStateAfter]
    | succ n =>
      cases hv : jsValidQ v with
      | none =>
        simp only [emaFold, hv, List.get?_cons_succ, List.take_succ_cons]
        rw [ih st n, emaStateAfter_cons]
        simp [hv]
      | some q =>
        simp only [emaFold, hv, List.get?_cons_succ, List.take_succ_cons]
        rw [ih (some (emaUpdate alpha q st)) n, emaStateAfter_cons]
        simp [hv]

lemma emaFold_lastValid_take (alpha : Rat) (vals : List JSVal) :
    ∀ (st : Option Rat) (i : Nat),
      orDefault (lastValid ((emaFold alpha st vals).take i)) st =
        emaStateAfter alpha st (vals.take i) := by
  induction vals with
  | nil => intro st i; simp [emaFold, lastValid, orDefault, emaStateAfter]
  | cons v vs ih =>
    intro st i
    cases i with
    | zero => simp [lastValid, orDefault, emaStateAfter]
    | succ n =>
      cases hv : jsValidQ v with
      | none =>
        simp only [emaFold, hv, List.take_succ_cons]
        rw [lastValid_cons_none, emaStateAfter_cons]
        simp only [hv]
        exact ih st n
      | some q =>
        simp only [emaFold, hv, List.take_succ_cons]
        rw [lastValid_cons_some, orDefault_some_left, emaStateAfter_cons]
        simp only [hv]
        have h := ih (some (emaUpdate alpha q st)) n
        rw [← h]
        cases hg : lastValid ((emaFold alpha (some (emaUpdate alpha q st)) vs).take n) <;>
          simp [orDefault]

/-- C4: `calculateEMA` is length- and order-preserving; a `null`/`NaN`
input at position i yields `null` at position i; a valid input `q` at
position i yields `alpha*q + (1-alpha)*e` where `e` is the last computed
average (the last valid output before i), or `q` itself when no valid
value has occurred yet — so gaps neither advance nor reset the running
average; and on `[10, null, 20]` with span 2 (alpha = 2/3) the output is
`[10, null, 50/3]` (≈ 16.67). -/
theorem calculateEMA_spec (vals : List JSVal) (span : Nat) :
    (calculateEMA vals span).length = vals.length
    ∧ (∀ i v, vals.get? i = some v → jsValidQ v = none →
        (calculateEMA vals span).get? i = some none)
    ∧ (∀ i q, vals.get? i = some (.num q) →
        (calculateEMA vals span).get? i =
          some (some (emaUpdate (2 / ((span : Rat) + 1)) q
            (lastValid ((calculateEMA vals span).take i)))))
    ∧ calculateEMA [.num 10, .null, .num 20] 2 = [some 10, none, some (50/3)] := by
  refine ⟨emaFold_length _ _ _, ?_, ?_,
    by norm_num [calculateEMA, emaFold, jsValidQ, emaUpdate]⟩
  · intro i v hv hinv
    rw [calculateEMA, emaFold_get? _ _ _ i, hv]
    simp [hinv]
  · intro i q hq
    have hst := emaFold_lastValid_take (2 / ((span : Rat) + 1)) vals none i
    rw [orDefault_none_right] at hst
    simp only [calculateEMA]
    rw [emaFold_get? _ _ _ i, hq, hst]
    simp [jsValidQ]

/-- Witness for C4: on input `[4, null]` position 1 is `null` and
position 0 is the seed value 4. -/
theorem calculateEMA_spec_witness :
    ([JSVal.num 4, JSVal.null].get? 1 = some JSVal.null ∧ jsValidQ JSVal.null = none)
    ∧ (calculateEMA [JSVal.num 4, JSVal.null] 10).get? 1 = some none :=
  ⟨⟨rfl, rfl⟩, (calculateEMA_spec [JSVal.num 4, JSVal.null] 10).2.1 1 JSVal.null rfl rfl⟩

/-! ## LOESS smoother -/

/-- The tricube weight of neighbour `j` relative to `i` for window size
`w`: `Math.pow(1 - Math.pow(Math.abs(i - j) / windowSize, 3), 3)`. -/
def tricube (w i j : Nat) : Rat :=
  (1 - ((Nat.dist i j : Rat) / (w : Rat)) ^ 3) ^ 3

/-- `windowSize = Math.max(3, Math.floor(n * bandwidth))`. -/
def loessWindowSize (n : Nat) (bandwidth : Rat) : Nat :=
  max 3 (((n : Rat) * bandwidth).floor.toNat)

/-- `start = Math.max(0, i - Math.floor(windowSize / 2))` (truncated
natural subtraction is exactly the clamped difference). -/
def loessStart (i w : Nat) : Nat := i - w / 2

/-- `end = Math.min(n, start + windowSize)`. -/
def loessEnd (n i w : Nat) : Nat := min n (loessStart i w + w)

/-- The indices `j` scanned by the inner loop `for (j = start; j < end; j++)`. -/
def loessIdxs (n i w : Nat) : List Nat :=
  List.range' (loessStart i w) (loessEnd n i w - loessStart i w)

/-- The inner accumulation loop of `calculateLOESS`: running
`(weightedSum, weightSum)` over the window, skipping invalid neighbours. -/
def loessSums (values : List JSVal) (n i w : Nat) : Rat × Rat :=
  (loessIdxs n i w).foldl
    (fun acc j =>
      match jsValidQ (values.getD j .null) with
      | none => acc
      | some q => (acc.1 + tricube w i j * q, acc.2 + tricube w i j))
    (0, 0)

/-- `calculateLOESS(data, key, bandwidth = 0.3)` of the source, applied
to the projected list `data.map(d => d[key])`.  The per-index `push`
loop is rendered as a map over `List.range n`. -/
def calculateLOESS (values : List JSVal) (bandwidth : Rat := 3 / 10) : List (Option Rat) :=
  let n := values.length
  (List.range n).map fun i =>
    match jsValidQ (values.getD i .null) with
    | none => none
    | some _ =>
      let w := loessWindowSize n bandwidth
      let s := loessSums values n i w
      if 0 < s.2 then some (s.1 / s.2) else none

/-- Specification-side weight of index `j` in the weighted sum: zero for
invalid neighbours, the tricube weight otherwise. -/
def loessWeight (values : List JSVal) (w i j : Nat) : Rat :=
  match jsValidQ (values.getD j .null) with
  | none => 0
  | some _ => tricube w i j

/-- Specification-side weighted contribution of index `j` to the numerator. -/
def loessContrib (values : List JSVal) (w i j : Nat) : Rat :=
  match jsValidQ (values.getD j .null) with
  | none => 0
  | some q => tricube w i j * q

/-- The tricube-weighted average of the valid values in the window of
`i`, as the claim states it: a quotient of window sums. -/
def loessAvg (values : List JSVal) (n i w : Nat) : Rat :=
  ((loessIdxs n i w).map (loessContrib values w i)).sum /
    ((loessIdxs n i w).map (loessWeight values w i)).sum

lemma loessSums_eq (values : List JSVal) (n i w : Nat) :
    loessSums values n i w =
      (((loessIdxs n i w).map (loessContrib values w i)).sum,
       ((loessIdxs n i w).map (loessWeight values w i)).sum) := by
  unfold loessSums
  generalize loessIdxs n i w = l
  suffices h : ∀ (a b : Rat),
      l.foldl
        (fun acc j =>
          match jsValidQ (values.getD j .null) with
          | none => acc
          | some q => (acc.1 + tricube w i j * q, acc.2 + tricube w i j))
        (a, b) =
      (a + (l.map (loessContrib values w i)).sum,
       b + (l.map (loessWeight values w i)).sum) by
    simpa using h 0 0
  induction l with
  | nil => intro a b; simp
  | cons j js ih =>
    intro a b
    cases hj : jsValidQ (values.getD j .null) with
    | none =>
      simp only [List.foldl_cons, hj, List.map_cons, List.sum_cons]
      rw [ih a b]
      simp only [loessContrib, loessWeight, hj, Prod.mk.injEq]
      constructor <;> ring
    | some q =>
      simp only [List.foldl_cons, hj, List.map_cons, List.sum_cons]
      rw [ih (a + tricube w i j * q) (b + tricube w i j)]
      simp only [loessContrib, loessWeight, hj, Prod.mk.injEq]
      constructor <;> ring

lemma mem_loessIdxs_iff {n i w j : Nat} :
    j ∈ loessIdxs n i w ↔ loessStart i w ≤ j ∧ j < loessEnd n i w := by
  unfold loessIdxs
  rw [List.mem_range'_1]
  constructor
  · rintro ⟨h1, h2⟩
    exact ⟨h1, by omega⟩
  · rintro ⟨h1, h2⟩
    have : loessStart i w ≤ loessEnd n i w := le_of_lt (lt_of_le_of_lt h1 h2)
    exact ⟨h1, by omega⟩

lemma self_mem_loessIdxs {n i w : Nat} (hi : i < n) (hw : 3 ≤ w) :
    i ∈ loessIdxs n i w := by
  rw [mem_loessIdxs_iff]
  simp only [loessStart, loessEnd, Nat.lt_min]
  omega

lemma dist_lt_of_mem_loessIdxs {n i w j : Nat} (hw : 3 ≤ w)
    (hj : j ∈ loessIdxs n i w) : Nat.dist i j < w := by
  rw [mem_loessIdxs_iff] at hj
  rcases hj with ⟨h1, h2⟩
  simp only [loessStart, loessEnd, Nat.lt_min] at h1 h2
  simp only [Nat.dist]
  omega

lemma tricube_pos {w i j : Nat} (hw : 0 < w) (hd : Nat.dist i j < w) :
    0 < tricube w i j := by
  unfold tricube
  have hw' : (0 : Rat) < (w : Rat) := by exact_mod_cast hw
  have hlt : ((Nat.dist i j : Rat) / (w : Rat)) < 1 := by
    rw [div_lt_one hw']
    exact_mod_cast hd
  have hnn : (0 : Rat) ≤ (Nat.dist i j : Rat) / (w : Rat) :=
    div_nonneg (by positivity) (le_of_lt hw')
  have hcube : ((Nat.dist i j : Rat) / (w : Rat)) ^ 3 < 1 :=
    pow_lt_one₀ hnn hlt (by norm_num)
  have hbase : (0 : Rat) < 1 - ((Nat.dist i j : Rat) / (w : Rat)) ^ 3 := by linarith
  exact pow_pos hbase 3

lemma loessWeight_nonneg (values : List JSVal) {n i w : Nat} (hw : 3 ≤ w)
    {j : Nat} (hj : j ∈ loessIdxs n i w) :
    0 ≤ loessWeight values w i j := by
  unfold loessWeight
  cases jsValidQ (values.getD j .null) with
  | none => simp
  | some q =>
    exact le_of_lt (tricube_pos (by omega) (dist_lt_of_mem_loessIdxs hw hj))

lemma loessWeightSum_pos (values : List JSVal) {n i w : Nat}
    (hi : i < n) (hw : 3 ≤ w) {q : Rat}
    (hq : jsValidQ (values.getD i .null) = some q) :
    0 < ((loessIdxs n i w).map (loessWeight values w i)).sum := by
  obtain ⟨s, t, hst⟩ := List.append_of_mem (self_mem_loessIdxs hi hw)
  have hsub : ∀ j ∈ loessIdxs n i w, 0 ≤ loessWeight values w i j :=
    fun j hj => loessWeight_nonneg values hw hj
  rw [hst] at hsub ⊢
  rw [List.map_append, List.sum_append, List.map_cons, List.sum_cons]
  have hs : 0 ≤ (s.map (loessWeight values w i)).sum :=
    List.sum_nonneg (by
      intro x hx
      obtain ⟨j, hj, rfl⟩ := List.mem_map.mp hx
      exact hsub j (by simp [hj]))
  have ht : 0 ≤ (t.map (loessWeight values w i)).sum :=
    List.sum_nonneg (by
      intro x hx
      obtain ⟨j, hj, rfl⟩ := List.mem_map.mp hx
      exact hsub j (by simp [hj]))
  have hii : 0 < loessWeight values w i i := by
    unfold loessWeight
    rw [hq]
    exact tricube_pos (by omega) (by simp [Nat.dist_self]; omega)
  linarith

lemma calculateLOESS_get? (values : List JSVal) (bandwidth : Rat) (i : Nat)
    (hi : i < values.length) :
    (calculateLOESS values bandwidth).get? i =
      some (match jsValidQ (values.getD i .null) with
        | none => none
        | some _ =>
          let w := loessWindowSize values.length bandwidth
          let s := loessSums values values.length i w
          if 0 < s.2 then some (s.1 / s.2) else none) := by
  unfold calculateLOESS
  rw [List.get?_map, List.get?_range hi]
  rfl

/-- C6: for every in-range index i, `calculateLOESS` outputs `null` when
the value at i itself is `null`/`NaN`, and otherwise the tricube-weighted
average (quotient of the weighted sum by the weight sum, both taken over
the valid values of the window `[max(0, i - ⌊w/2⌋), min(n, start + w))`
with `w = max(3, ⌊n·bandwidth⌋)` and neighbour weight
`(1 - (|i-j|/w)^3)^3`). -/
theorem calculateLOESS_spec (values : List JSVal) (bandwidth : Rat) (i : Nat)
    (hi : i < values.length) :
    (calculateLOESS values bandwidth).get? i =
      some (match jsValidQ (values.getD i .null) with
        | none => none
        | some _ =>
          some (loessAvg values values.length i
            (loessWindowSize values.length bandwidth))) := by
  rw [calculateLOESS_get? values bandwidth i hi]
  cases hq : jsValidQ (values.getD i .null) with
  | none => rfl
  | some q =>
    have hw : 3 ≤ loessWindowSize values.length bandwidth := le_max_left _ _
    have hpos := loessWeightSum_pos values hi hw hq
    simp only [loessSums_eq, loessAvg]
    rw [if_pos hpos]

/-- Witness for C6: on `[5, null, 7]` index 1 is `null` (self-null) and
index 0 is the weighted average of its window. -/
theorem calculateLOESS_spec_witness :
    ((1 : Nat) < ([JSVal.num 5, JSVal.null, JSVal.num 7] : List JSVal).length)
    ∧ (calculateLOESS [JSVal.num 5, JSVal.null, JSVal.num 7] (3/10)).get? 1 = some none :=
  ⟨by decide,
    by
      have h := calculateLOESS_spec [JSVal.num 5, JSVal.null, JSVal.num 7] (3/10) 1
        (by decide)
      simpa [jsValidQ] using h⟩

/-- C10: whenever the input value at index i is a valid number, the LOESS
output at i is non-null — the "no valid neighbour with positive weight"
branch is unreachable for valid points, since the window always contains
i itself with tricube weight 1. -/
theorem calculateLOESS_valid_nonnull (values : List JSVal) (bandwidth : Rat)
    (i : Nat) (q : Rat) (hq : values.get? i = some (.num q)) :
    ∃ r : Rat, (calculateLOESS values bandwidth).get? i = some (some r) := by
  have hi : i < values.length := List.get?_eq_some.mp hq |>.1
  have hd : values.getD i .null = .num q := by
    have := List.getD_eq_get? values i JSVal.null
    rw [this, hq]
    rfl
  refine ⟨loessAvg values values.length i (loessWindowSize values.length bandwidth), ?_⟩
  rw [calculateLOESS_get? values bandwidth i hi]
  have hvq : jsValidQ (values.getD i .null) = some q := by rw [hd]; rfl
  have hw : 3 ≤ loessWindowSize values.length bandwidth := le_max_left _ _
  have hpos := loessWeightSum_pos values hi hw hvq
  simp only [hvq, loessSums_eq, loessAvg]
  rw [if_pos hpos]

/-- Witness for C10: the valid value at index 0 of `[5, null, 7]` has a
non-null LOESS output. -/
theorem calculateLOESS_valid_nonnull_witness :
    (([JSVal.num 5, JSVal.null, JSVal.num 7] : List JSVal).get? 0 = some (.num 5))
    ∧ ∃ r : Rat, (calculateLOESS [JSVal.num 5, JSVal.null, JSVal.num 7] (3/10)).get? 0 =
        some (some r) :=
  ⟨rfl, calculateLOESS_valid_nonnull [JSVal.num 5, JSVal.null, JSVal.num 7] (3/10) 0 5 rfl⟩

/-! ## Forecast extrapolation -/

/-- `predictEMA(lastEMA, months = 3)`: `Array(months).fill(lastEMA)`. -/
def predictEMA (lastEMA : Option Rat) (months : Nat := 3) : List (Option Rat) :=
  List.replicate months lastEMA

/-- `validValues[validValues.length - 1] || null` of `predictLOESS`: JS
truthiness coalescing on the last valid value — `undefined` (empty array)
becomes `null`, and the number `0` is falsy and also becomes `null`. -/
def jsOrNull : Option Rat → Option Rat
  | some q => if q = 0 then none else some q
  | none => none

/-- `predictLOESS(loessValues, months = 3)` of the source.  The input
values are the outputs of `calculateLOESS` (numbers or `null`s; the
additional `isNaN` filter of the source cannot fire on this domain).
`getD 0` renders indexing a list known to be non-empty at that point. -/
def predictLOESS (loessValues : List (Option Rat)) (months : Nat := 3) : List (Option Rat) :=
  let validValues := loessValues.filterMap id
  if validValues.length < 2 then
    List.replicate months (jsOrNull validValues.getLast?)
  else
    let lastN := min 5 validValues.length
    let recentValues := validValues.drop (validValues.length - lastN)
    let slope := ((recentValues.getLast?).getD 0 - (recentValues.get? 0).getD 0) /
      ((lastN : Rat) - 1)
    let lastValue := (validValues.getLast?).getD 0
    (List.range months).map fun (i : Nat) => some (lastValue + slope * ((i : Rat) + 1))

lemma getLast?_drop_of_lt {α : Type _} :
    ∀ (l : List α) (k : Nat), k < l.length → (l.drop k).getLast? = l.getLast? := by
  intro l
  induction l with
  | nil => intro k h; simp at h
  | cons a as ih =>
    intro k h
    cases k with
    | zero => simp
    | succ n =>
      cases as with
      | nil => simp at h
      | cons b bs =>
        simp only [List.drop_succ_cons]
        have hn : n < (b :: bs).length := by simpa using h
        rw [ih n hn, List.getLast?_cons_cons]

/-- C5 counterexample: a LOESS series whose single valid value is 0.  The
claim demands a flat projection at that value, `[0, 0, 0]`; the code's
`validValues[...] || null` treats 0 as falsy and produces `[null, null,
null]`. -/
theorem predictLOESS_zero_counterexample :
    predictLOESS [some 0] 3 = [none, none, none]
    ∧ predictLOESS [some 0] 3 ≠ List.replicate 3 (some (0 : Rat)) := by
  constructor
  · rfl
  · intro h
    rw [show predictLOESS [some 0] 3 = [none, none, none] from rfl] at h
    simp at h

/-- C5 (amended): `predictLOESS` projects `lastValue + slope·k` for
k = 1..M with slope `(last - first)/(lastN - 1)` over the sub-window of
the last `lastN = min(5, count)` valid values when at least two valid
values exist; with no valid value every position is `null`; with exactly
one valid value the projection is flat at that value — except that a
value of exactly 0 degrades to `null` (JS `|| null` falsiness). -/
theorem predictLOESS_spec (l : List (Option Rat)) (months : Nat) :
    (l.filterMap id = [] → predictLOESS l months = List.replicate months none)
    ∧ (∀ q : Rat, l.filterMap id = [q] →
        predictLOESS l months =
          List.replicate months (if q = 0 then none else some q))
    ∧ (∀ (qL qF : Rat) (k : Nat), 2 ≤ (l.filterMap id).length →
        (l.filterMap id).getLast? = some qL →
        (l.filterMap id).get?
          ((l.filterMap id).length - min 5 (l.filterMap id).length) = some qF →
        k < months →
        (predictLOESS l months).get? k =
          some (some (qL + (qL - qF) /
            (((min 5 (l.filterMap id).length : Nat) : Rat) - 1) * ((k : Rat) + 1)))) := by
  refine ⟨?_, ?_, ?_⟩
  · intro h
    unfold predictLOESS
    rw [h]
    simp [jsOrNull]
  · intro q h
    unfold predictLOESS
    rw [h]
    simp [jsOrNull]
  · intro qL qF k h2 hL hF hk
    unfold predictLOESS
    rw [if_neg (by omega)]
    have hlastN : min 5 (l.filterMap id).length ≤ (l.filterMap id).length :=
      min_le_right _ _
    have hdrop : (l.filterMap id).length - min 5 (l.filterMap id).length <
        (l.filterMap id).length := by omega
    have hrecL : (((l.filterMap id).drop
        ((l.filterMap id).length - min 5 (l.filterMap id).length)).getLast?) = some qL := by
      rw [getLast?_drop_of_lt _ _ hdrop, hL]
    have hrecF : (((l.filterMap id).drop
        ((l.filterMap id).length - min 5 (l.filterMap id).length)).get? 0) = some qF := by
      rw [List.get?_drop, Nat.add_zero, hF]
    rw [List.get?_map, List.get?_range hk]
    simp only [hrecL, hrecF, hL, Option.getD_some, Option.map_some]
    rfl

/-- Witness for C5: a two-valid-value series projects linearly. -/
theorem predictLOESS_spec_witness :
    (2 ≤ (([some 10, some 12] : List (Option Rat)).filterMap id).length
      ∧ (([some 10, some 12] : List (Option Rat)).filterMap id).getLast? = some 12
      ∧ (([some 10, some 12] : List (Option Rat)).filterMap id).get?
          ((([some 10, some 12] : List (Option Rat)).filterMap id).length -
            min 5 (([some 10, some 12] : List (Option Rat)).filterMap id).length) = some 10
      ∧ 0 < 3)
    ∧ (predictLOESS [some 10, some 12] 3).get? 0 =
        some (some ((12 : Rat) + ((12 : Rat) - 10) /
          (((min 5 (([some 10, some 12] : List (Option Rat)).filterMap id).length : Nat) : Rat) - 1) *
          (((0 : Nat) : Rat) + 1))) :=
  ⟨⟨by decide, rfl, rfl, by decide⟩,
    (predictLOESS_spec [some 10, some 12] 3).2.2 12 10 0 (by decide) rfl rfl (by decide)⟩

/-! ## Future date generation -/

/-- Gregorian leap-year rule, as realised by JS `Date` month arithmetic. -/
def isLeap (y : Nat) : Bool :=
  (y % 4 == 0 && y % 100 != 0) || y % 400 == 0

/-- Days in month `m` (0-based, as JS `getMonth`) of year `y`. -/
def daysInMonth (y m : Nat) : Nat :=
  if m = 1 then (if isLeap y then 29 else 28)
  else if m = 3 ∨ m = 5 ∨ m = 8 ∨ m = 10 then 30
  else 31

/-- A calendar date as held by a JS `Date` in UTC: year, 0-based month
(as `getMonth` returns it), 1-based day of month. -/
structure Ymd where
  year : Nat
  month : Nat
  day : Nat
deriving DecidableEq

/-- Well-formed calendar date: month in 0..11, day within the month. -/
def wfYmd (d : Ymd) : Prop :=
  d.month ≤ 11 ∧ 1 ≤ d.day ∧ d.day ≤ daysInMonth d.year d.month

instance (d : Ymd) : Decidable (wfYmd d) := by unfold wfYmd; infer_instance

/-- `date.setMonth(m)` for `m ≥ 0`: the year absorbs `m / 12`, the month
becomes `m % 12`, and a day-of-month beyond the target month's length
spills over into the following month (ECMAScript `MakeDay`
normalisation; for days ≤ 31 the overflow is at most 3 days, so at most
one month is crossed). -/
def jsSetMonth (d : Ymd) (m : Nat) : Ymd :=
  if d.day ≤ daysInMonth (d.year + m / 12) (m % 12) then
    ⟨d.year + m / 12, m % 12, d.day⟩
  else if m % 12 = 11 then
    ⟨d.year + m / 12 + 1, 0, d.day - daysInMonth (d.year + m / 12) (m % 12)⟩
  else
    ⟨d.year + m / 12, m % 12 + 1, d.day - daysInMonth (d.year + m / 12) (m % 12)⟩

/-- A decimal digit character. -/
def digitChar (n : Nat) : Char := Char.ofNat (48 + n % 10)

/-- Two-digit zero-padded decimal rendering (for month and day). -/
def pad2 (n : Nat) : String := ⟨[digitChar (n / 10), digitChar n]⟩

/-- Four-digit zero-padded decimal rendering (for years 0..9999, the
range in which `toISOString` uses the plain `YYYY` form). -/
def pad4 (n : Nat) : String :=
  ⟨[digitChar (n / 1000), digitChar (n / 100), digitChar (n / 10), digitChar n]⟩

/-- `toISOString().slice(0, 10)`: the `YYYY-MM-DD` rendering of a date. -/
def toISO (d : Ymd) : String :=
  pad4 d.year ++ "-" ++ pad2 (d.month + 1) ++ "-" ++ pad2 d.day

/-- The date pushed at iteration `i` of `generateFutureDates`:
`futureDate.setMonth(futureDate.getMonth() + i)` on a copy of the last date. -/
def futureYmd (last : Ymd) (i : Nat) : Ymd := jsSetMonth last (last.month + i)

/-- `generateFutureDates(lastDate, months = 3)` of the source. -/
def generateFutureDates (last : Ymd) (months : Nat := 3) : List String :=
  (List.range months).map fun i => toISO (futureYmd last (i + 1))

lemma daysInMonth_bounds (y m : Nat) :
    28 ≤ daysInMonth y m ∧ daysInMonth y m ≤ 31 := by
  unfold daysInMonth
  split
  · split <;> omega
  · split <;> omega

lemma jsSetMonth_wf (d : Ymd) (hd : wfYmd d) (m : Nat) :
    wfYmd (jsSetMonth d m) := by
  obtain ⟨hm, h1, h2⟩ := hd
  have hb := daysInMonth_bounds d.year d.month
  have hb2 := daysInMonth_bounds (d.year + m / 12) (m % 12)
  have hmod : m % 12 < 12 := Nat.mod_lt _ (by norm_num)
  unfold jsSetMonth
  split_ifs with hfit hlast
  all_goals unfold wfYmd
  all_goals dsimp only
  · exact ⟨by omega, h1, hfit⟩
  · have hb3 := daysInMonth_bounds (d.year + m / 12 + 1) 0
    refine ⟨by norm_num, by omega, ?_⟩
    omega
  · have hb3 := daysInMonth_bounds (d.year + m / 12) (m % 12 + 1)
    exact ⟨by omega, by omega, by omega⟩

/-- C1 counterexample: the claim's own example fails on the code —
advancing 2024-01-31 by one month does not clamp to 2024-02-29 but
spills into March. -/
theorem generateFutureDates_clamping_counterexample :
    generateFutureDates ⟨2024, 0, 31⟩ 3 ≠ ["2024-02-29", "2024-03-31", "2024-04-30"]
    ∧ generateFutureDates ⟨2024, 0, 31⟩ 3 = ["2024-03-02", "2024-03-31", "2024-05-01"] := by
  constructor
  · decide
  · decide

/-- C1 (amended): `generateFutureDates` produces M dates by advancing the
last date by 1..M calendar months with month-length and leap-year
awareness, where a day-of-month exceeding the target month's length
rolls over into the following month (JS `setMonth` normalisation) rather
than clamping; in particular `generateFutureDates('2024-01-31', 3)`
returns `['2024-03-02', '2024-03-31', '2024-05-01']`, and month
arithmetic always yields a well-formed calendar date. -/
theorem generateFutureDates_spec :
    generateFutureDates ⟨2024, 0, 31⟩ 3 = ["2024-03-02", "2024-03-31", "2024-05-01"]
    ∧ (∀ (d : Ymd) (M : Nat), (generateFutureDates d M).length = M)
    ∧ (∀ (d : Ymd) (M k : Nat), k < M →
        (generateFutureDates d M).get? k =
          some (toISO (jsSetMonth d (d.month + (k + 1)))))
    ∧ (∀ d : Ymd, wfYmd d → ∀ m : Nat, wfYmd (jsSetMonth d m)) := by
  refine ⟨by decide, ?_, ?_, fun d hd m => jsSetMonth_wf d hd m⟩
  · intro d M
    simp [generateFutureDates]
  · intro d M k hk
    unfold generateFutureDates
    rw [List.get?_map, List.get?_range hk]
    rfl

/-- Witness for C1 (amended): a well-formed date stays well-formed under
month advancement, and the indexed characterisation holds at index 0. -/
theorem generateFutureDates_spec_witness :
    (wfYmd ⟨2025, 0, 31⟩ ∧ 0 < 2)
    ∧ wfYmd (jsSetMonth ⟨2025, 0, 31⟩ 1)
    ∧ (generateFutureDates ⟨2025, 0, 31⟩ 2).get? 0 =
        some (toISO (jsSetMonth ⟨2025, 0, 31⟩ (0 + (0 + 1)))) :=
  ⟨⟨by decide, by decide⟩,
    generateFutureDates_spec.2.2.2 ⟨2025, 0, 31⟩ (by decide) 1,
    generateFutureDates_spec.2.2.1 ⟨2025, 0, 31⟩ 2 0 (by decide)⟩

/-! ## Tracked fields and series statistics -/

/-- The five tracked fields of a bid record: 추정가격 (estimated price),
기초금액 (base price), 낙찰금액 (winning price), and the two ratio
fields 기초/낙찰 and 추정/낙찰. -/
inductive Field where
  | estimatedPrice
  | basePrice
  | winningPrice
  | baseWinRatio
  | estWinRatio
deriving DecidableEq

/-- The `{avg, min, max}` record produced per field by `computeStats`. -/
structure FieldStats where
  avg : Option Rat
  min : Option Rat
  max : Option Rat
deriving DecidableEq

/-- The values collected for one field:
`data.map(d => d[key]).filter(v => typeof v === 'number' && !Number.isNaN(v))` —
on the modelled value domain exactly the `num` payloads (strings never
occur on the wire contract; `null` fails the typeof test and `NaN` fails
the `Number.isNaN` test). -/
def validNums (data : List (Field → JSVal)) (k : Field) : List Rat :=
  (data.map (fun d => d k)).filterMap jsValidQ

/-- The per-key body of `computeStats`: the early return for an empty
collection, otherwise mean by `reduce((a,b) => a+b, 0) / length` and
min/max by `Math.min(...values)` / `Math.max(...values)` (folds over the
non-empty collection). -/
def statsFor (data : List (Field → JSVal)) (k : Field) : FieldStats :=
  match validNums data k with
  | [] => ⟨none, none, none⟩
  | v :: vs =>
    ⟨some (((v :: vs).foldl (· + ·) 0) / (((v :: vs).length : Nat) : Rat)),
     some (vs.foldl min v), some (vs.foldl max v)⟩

/-- `computeStats(data, keys)` of the source: an entry per requested key. -/
def computeStats (data : List (Field → JSVal)) (keys : List Field) :
    List (Field × FieldStats) :=
  keys.map fun k => (k, statsFor data k)

lemma lookup_map_pair {α β : Type _} [DecidableEq α] (f : α → β) :
    ∀ (keys : List α) (k : α), k ∈ keys →
      (keys.map (fun a => (a, f a))).lookup k = some (f k) := by
  intro keys
  induction keys with
  | nil => intro k hk; simp at hk
  | cons a as ih =>
    intro k hk
    by_cases h : k = a
    · subst h
      simp [List.lookup]
    · have hba : (k == a) = false := by
        simp [beq_iff_eq, h]
      rcases List.mem_cons.mp hk with h' | h'
      · exact absurd h' h
      · simp only [List.map_cons, List.lookup, hba]
        exact ih k h'

lemma foldl_add_eq_sum (l : List Rat) : ∀ a : Rat, l.foldl (· + ·) a = a + l.sum := by
  induction l with
  | nil => intro a; simp
  | cons v vs ih =>
    intro a
    simp only [List.foldl_cons, List.sum_cons, ih]
    ring

lemma foldl_min_spec (vs : List Rat) : ∀ v : Rat,
    vs.foldl min v ∈ v :: vs ∧ ∀ x ∈ v :: vs, vs.foldl min v ≤ x := by
  induction vs with
  | nil => intro v; exact ⟨List.mem_cons_self v [], by simp⟩
  | cons b bs ih =>
    intro v
    obtain ⟨hmem, hle⟩ := ih (min v b)
    constructor
    · rcases List.mem_cons.mp hmem with h | h
      · rcases min_choice v b with hc | hc <;> rw [List.foldl_cons, h, hc] <;> simp
      · rw [List.foldl_cons]
        exact List.mem_cons.mpr (Or.inr (List.mem_cons.mpr (Or.inr h)))
    · intro x hx
      rw [List.foldl_cons]
      rcases List.mem_cons.mp hx with h | h
      · subst h
        exact le_trans (hle _ (List.mem_cons_self _ _)) (min_le_left _ _)
      rcases List.mem_cons.mp h with h' | h'
      · subst h'
        exact le_trans (hle _ (List.mem_cons_self _ _)) (min_le_right _ _)
      · exact hle x (List.mem_cons.mpr (Or.inr h'))

lemma foldl_max_spec (vs : List Rat) : ∀ v : Rat,
    vs.foldl max v ∈ v :: vs ∧ ∀ x ∈ v :: vs, x ≤ vs.foldl max v := by
  induction vs with
  | nil => intro v; exact ⟨List.mem_cons_self v [], by simp⟩
  | cons b bs ih =>
    intro v
    obtain ⟨hmem, hle⟩ := ih (max v b)
    constructor
    · rcases List.mem_cons.mp hmem with h | h
      · rcases max_choice v b with hc | hc <;> rw [List.foldl_cons, h, hc] <;> simp
      · rw [List.foldl_cons]
        exact List.mem_cons.mpr (Or.inr (List.mem_cons.mpr (Or.inr h)))
    · intro x hx
      rw [List.foldl_cons]
      rcases List.mem_cons.mp hx with h | h
      · subst h
        exact le_trans (le_max_left _ _) (hle _ (List.mem_cons_self _ _))
      rcases List.mem_cons.mp h with h' | h'
      · subst h'
        exact le_trans (le_max_right _ _) (hle _ (List.mem_cons_self _ _))
      · exact hle x (List.mem_cons.mpr (Or.inr h'))

/-- C8: `computeStats` collects, per field independently, exactly the
numeric non-NaN values; when none exist it yields `{avg: null, min:
null, max: null}` for that field (in particular on empty input, and it
is a total function — it never throws); otherwise `avg` is the
arithmetic mean and `min`/`max` are the least/greatest collected values
by direct comparison. -/
theorem computeStats_spec (data : List (Field → JSVal)) (keys : List Field)
    (k : Field) (hk : k ∈ keys) :
    ∃ s : FieldStats, (computeStats data keys).lookup k = some s
      ∧ (validNums data k = [] → s = ⟨none, none, none⟩)
      ∧ (validNums data k ≠ [] →
          s.avg = some ((validNums data k).sum / ((validNums data k).length : Rat))
          ∧ (∃ m, s.min = some m ∧ m ∈ validNums data k ∧ ∀ x ∈ validNums data k, m ≤ x)
          ∧ (∃ m, s.max = some m ∧ m ∈ validNums data k ∧ ∀ x ∈ validNums data k, x ≤ m))
      ∧ (data = [] → s = ⟨none, none, none⟩) := by
  refine ⟨statsFor data k, lookup_map_pair (statsFor data) keys k hk, ?_, ?_, ?_⟩
  · intro h
    unfold statsFor
    rw [h]
  · intro h
    unfold statsFor
    rcases hv : validNums data k with _ | ⟨v, vs⟩
    · exact absurd hv h
    · refine ⟨?_, ?_, ?_⟩
      · simp only [FieldStats.avg]
        rw [foldl_add_eq_sum (v :: vs) 0, zero_add]
      · obtain ⟨hmem, hle⟩ := foldl_min_spec vs v
        exact ⟨vs.foldl min v, rfl, hmem, hle⟩
      · obtain ⟨hmem, hle⟩ := foldl_max_spec vs v
        exact ⟨vs.foldl max v, rfl, hmem, hle⟩
  · intro h
    subst h
    rfl

/-- Witness for C8: a singleton data set with one numeric field. -/
theorem computeStats_spec_witness :
    (Field.winningPrice ∈ [Field.winningPrice])
    ∧ ∃ s : FieldStats,
        (computeStats [fun _ => JSVal.num 3] [Field.winningPrice]).lookup
          Field.winningPrice = some s
        ∧ (validNums [fun _ => JSVal.num 3] Field.winningPrice = [] →
            s = ⟨none, none, none⟩)
        ∧ (validNums [fun _ => JSVal.num 3] Field.winningPrice ≠ [] →
            s.avg = some ((validNums [fun _ => JSVal.num 3] Field.winningPrice).sum /
              ((validNums [fun _ => JSVal.num 3] Field.winningPrice).length : Rat))
            ∧ (∃ m, s.min = some m ∧ m ∈ validNums [fun _ => JSVal.num 3] Field.winningPrice
                ∧ ∀ x ∈ validNums [fun _ => JSVal.num 3] Field.winningPrice, m ≤ x)
            ∧ (∃ m, s.max = some m ∧ m ∈ validNums [fun _ => JSVal.num 3] Field.winningPrice
                ∧ ∀ x ∈ validNums [fun _ => JSVal.num 3] Field.winningPrice, x ≤ m))
        ∧ (([fun _ => JSVal.num 3] : List (Field → JSVal)) = [] →
            s = ⟨none, none, none⟩) :=
  ⟨List.mem_cons_self _ _,
    computeStats_spec [fun _ => JSVal.num 3] [Field.winningPrice] Field.winningPrice
      (List.mem_cons_self _ _)⟩

/-! ## Date strings, records, and the filter step -/

/-- JS string comparison `s < t`, lexicographic on code units (codepoint
order on the ASCII date strings involved). -/
def charListLt : List Char → List Char → Bool
  | [], [] => false
  | [], _ :: _ => true
  | _ :: _, [] => false
  | a :: as, b :: bs =>
    if a < b then true
    else if b < a then false
    else charListLt as bs

/-- `s < t` on strings. -/
def strLt (s t : String) : Bool := charListLt s.data t.data

/-- `s <= t` on strings (used to state inclusivity of the window). -/
def strLe (s t : String) : Bool := strLt s t || s == t

lemma charListLt_false_iff :
    ∀ as bs : List Char, charListLt as bs = false ↔
      (charListLt bs as = true ∨ as = bs) := by
  intro as
  induction as with
  | nil =>
    intro bs
    cases bs with
    | nil => simp [charListLt]
    | cons b bs => simp [charListLt]
  | cons a as ih =>
    intro bs
    cases bs with
    | nil => simp [charListLt]
    | cons b bs =>
      rcases lt_trichotomy a b with h | h | h
      · have hba : ¬ b < a := lt_asymm h
        have hne : a ≠ b := ne_of_lt h
        simp [charListLt, h, hba, hne]
      · subst h
        simp [charListLt, lt_irrefl, ih bs]
      · have hab : ¬ a < b := lt_asymm h
        simp [charListLt, h, hab]

lemma strLt_false_iff (s t : String) : strLt s t = false ↔ strLe t s = true := by
  unfold strLt strLe
  rw [charListLt_false_iff]
  constructor
  · rintro (h | h)
    · simp [strLt, h]
    · have hst : s = t := by
        cases s; cases t
        exact congrArg String.mk h
      simp [hst]
  · intro h
    rcases Bool.or_eq_true_iff.mp h with h' | h'
    · exact Or.inl h'
    · have : t = s := by simpa [beq_iff_eq] using h'
      subst this
      exact Or.inr rfl

/-- The filter predicate of the `data` useMemo:
`if (dateFrom && iso < dateFrom) return false; if (dateTo && iso > dateTo)
return false; return true` (an empty bound string is falsy). -/
def keepRecord (f t iso : String) : Bool :=
  if (f != "") && strLt iso f then false
  else if (t != "") && strLt t iso then false
  else true

lemma keepRecord_eq (f t iso : String) :
    keepRecord f t iso =
      ((f == "" || strLe f iso) && (t == "" || strLe iso t)) := by
  unfold keepRecord
  have h1 := strLt_false_iff iso f
  have h2 := strLt_false_iff t iso
  by_cases hf : f = "" <;> by_cases ht : t = "" <;>
    cases hA : strLt iso f <;> cases hB : strLt t iso <;>
      simp_all [bne]

/-- One raw bid record: the parse result of its 입찰일 (bid date) field —
`none` standing for an Invalid Date — and its five numeric fields. -/
structure BidRecord where
  bidDate : Option Ymd
  fields : Field → JSVal

/-- A strictly monotone linearisation of calendar dates (the time value
of the JS `Date`, up to order isomorphism). -/
def dateKey (d : Ymd) : Nat := d.year * 372 + d.month * 31 + d.day

/-- The sort comparator `(a, b) => new Date(a.입찰일) - new Date(b.입찰일)`
rendered as a keep-in-order test: true when the comparator is ≤ 0.  A
comparison involving an Invalid Date yields NaN, which the sort treats
as 0 (order kept). -/
def bidLeB (a b : BidRecord) : Bool :=
  match a.bidDate, b.bidDate with
  | some x, some y => decide (dateKey x ≤ dateKey y)
  | _, _ => true

/-- `[...rawData].sort(...)`: a stable sort by bid date. -/
def sortStep (l : List BidRecord) : List BidRecord :=
  List.insertionSort (fun a b => bidLeB a b = true) l

/-- The filter of the `data` useMemo.  `formatDate` calls
`new Date(iso).toISOString()`, which throws a RangeError on an Invalid
Date; the `Except` layer carries that exception. -/
def filterStep (f t : String) : List BidRecord → Except Unit (List BidRecord)
  | [] => .ok []
  | r :: rs =>
    match r.bidDate with
    | none => .error ()
    | some d =>
      match filterStep f t rs with
      | .error e => .error e
      | .ok rest => .ok (if keepRecord f t (toISO d) then r :: rest else rest)

/-- Specification-side inclusion predicate: the record's ISO date string
lies within the inclusive `[dateFrom, dateTo]` window, an empty bound
leaving that side unbounded. -/
def includedB (f t : String) (r : BidRecord) : Bool :=
  match r.bidDate with
  | none => false
  | some d => (f == "" || strLe f (toISO d)) && (t == "" || strLe (toISO d) t)

lemma filterStep_ok_of_valid (f t : String) :
    ∀ l : List BidRecord, (∀ r ∈ l, r.bidDate ≠ none) →
      filterStep f t l = .ok (l.filter (includedB f t)) := by
  intro l
  induction l with
  | nil => intro _; rfl
  | cons r rs ih =>
    intro h
    rcases hd : r.bidDate with _ | d
    · exact absurd hd (h r (List.mem_cons_self r rs))
    · have hrest := ih (fun x hx => h x (List.mem_cons_of_mem r hx))
      have hinc : includedB f t r = keepRecord f t (toISO d) := by
        unfold includedB
        rw [hd, keepRecord_eq]
      unfold filterStep
      rw [hd, hrest, List.filter_cons, hinc]

lemma filterStep_error_iff (f t : String) :
    ∀ l : List BidRecord,
      filterStep f t l = .error () ↔ ∃ r ∈ l, r.bidDate = none := by
  intro l
  induction l with
  | nil => simp [filterStep]
  | cons r rs ih =>
    rcases hd : r.bidDate with _ | d
    · simp only [filterStep, hd]
      constructor
      · intro _; exact ⟨r, List.mem_cons_self r rs, hd⟩
      · intro _; trivial
    · simp only [filterStep, hd]
      cases hrec : filterStep f t rs with
      | error e =>
        cases e
        rw [ih] at hrec
        obtain ⟨x, hx, hxd⟩ := hrec
        constructor
        · intro _; exact ⟨x, List.mem_cons_of_mem r hx, hxd⟩
        · intro _; trivial
      | ok rest =>
        constructor
        · intro hcontra; cases hcontra
        · rintro ⟨x, hx, hxd⟩
          rcases List.mem_cons.mp hx with rfl | hx'
          · rw [hd] at hxd; cases hxd
          · have : filterStep f t rs = .error () :=
              (ih).mpr ⟨x, hx', hxd⟩
            rw [this] at hrec
            cases hrec

lemma filterStep_ok_valid (f t : String) :
    ∀ (l out : List BidRecord), filterStep f t l = .ok out →
      ∀ r ∈ out, r.bidDate ≠ none := by
  intro l
  induction l with
  | nil =>
    intro out h r hr
    simp only [filterStep] at h
    cases h
    simp at hr
  | cons x xs ih =>
    intro out h r hr
    rcases hd : x.bidDate with _ | d
    · simp only [filterStep, hd] at h
      cases h
    · simp only [filterStep, hd] at h
      cases hrec : filterStep f t xs with
      | error e => rw [hrec] at h; cases h
      | ok rest =>
        rw [hrec] at h
        cases h
        by_cases hkeep : keepRecord f t (toISO d) = true
        · rw [if_pos hkeep] at hr
          rcases List.mem_cons.mp hr with rfl | hr'
          · rw [hd]; exact Option.some_ne_none d
          · exact ih rest hrec r hr'
        · rw [if_neg hkeep] at hr
          exact ih rest hrec r hr

/-- C7: under parseable dates, the filter step returns exactly the
records whose ISO date string lies within the inclusive
`[dateFrom, dateTo]` window (ISO-string comparison; an empty bound is
unbounded on that side): membership in the filtered series is equivalent
to membership in the input together with the window predicate. -/
theorem date_filter_spec (raw : List BidRecord) (f t : String)
    (h : ∀ r ∈ raw, r.bidDate ≠ none) :
    filterStep f t (sortStep raw) = .ok ((sortStep raw).filter (includedB f t))
    ∧ ∀ r : BidRecord, r ∈ (sortStep raw).filter (includedB f t) ↔
        (r ∈ raw ∧ includedB f t r = true) := by
  have hperm : (sortStep raw).Perm raw := List.perm_insertionSort _ raw
  have hvalid : ∀ r ∈ sortStep raw, r.bidDate ≠ none :=
    fun r hr => h r (hperm.mem_iff.mp hr)
  refine ⟨filterStep_ok_of_valid f t _ hvalid, ?_⟩
  intro r
  rw [List.mem_filter, hperm.mem_iff]

/-- A one-record data set used by the filter witness. -/
def demoRecMid : BidRecord := ⟨some ⟨2024, 0, 15⟩, fun _ => JSVal.null⟩

/-- Witness for C7: a singleton list with a parseable date. -/
theorem date_filter_spec_witness :
    (∀ r ∈ [demoRecMid], r.bidDate ≠ none)
    ∧ (filterStep "" "" (sortStep [demoRecMid]) =
        .ok ((sortStep [demoRecMid]).filter (includedB "" ""))
      ∧ ∀ r : BidRecord, r ∈ (sortStep [demoRecMid]).filter (includedB "" "") ↔
          (r ∈ [demoRecMid] ∧ includedB "" "" r = true)) :=
  ⟨fun r hr => by
      rw [List.mem_singleton.mp hr]
      exact Option.some_ne_none _,
    date_filter_spec [demoRecMid] "" ""
      (fun r hr => by
        rw [List.mem_singleton.mp hr]
        exact Option.some_ne_none _)⟩

/-! ## The trend pipeline (the `data` useMemo) -/

/-- The value mode of the chart: absolute amounts or ratios. -/
inductive Mode where
  | amount
  | ratio
deriving DecidableEq

/-- `keysToProcess`: the active field set of the mode. -/
def keysFor : Mode → List Field
  | .amount => [.estimatedPrice, .basePrice, .winningPrice]
  | .ratio => [.baseWinRatio, .estWinRatio]

/-- `toPercent(value)`: `value == null ? null : Number(value) * 100`
(NaN stays NaN under arithmetic). -/
def toPercent : JSVal → JSVal
  | .null => .null
  | .num q => .num (q * 100)
  | .nan => .nan

/-- The two ratio fields. -/
def ratioField : Field → Bool
  | .baseWinRatio => true
  | .estWinRatio => true
  | _ => false

/-- One row of the chart-ready series: the bid date, the five
original/percent-converted fields, and the optional derived
`<field>_EMA` / `<field>_LOESS` entries (`none` = key absent,
`some v` = key present with value `v`, itself possibly `null`). -/
structure ChartPoint where
  date : Option Ymd
  orig : Field → JSVal
  ema : Field → Option (Option Rat)
  loess : Field → Option (Option Rat)

/-- Step 3 of the pipeline: in ratio mode the two ratio fields are
percent-normalised; amount fields (and the date) are left untouched. -/
def convertPoint (mode : Mode) (r : BidRecord) : ChartPoint :=
  { date := r.bidDate
  , orig := fun k =>
      match mode with
      | .amount => r.fields k
      | .ratio => if ratioField k then toPercent (r.fields k) else r.fields k
  , ema := fun _ => none
  , loess := fun _ => none }

/-- `{...d, [key + '_EMA']: v}`. -/
def setEma (k : Field) (p : ChartPoint) (v : Option Rat) : ChartPoint :=
  { p with ema := fun kk => if kk = k then some v else p.ema kk }

/-- `{...d, [key + '_LOESS']: v}`. -/
def setLoess (k : Field) (p : ChartPoint) (v : Option Rat) : ChartPoint :=
  { p with loess := fun kk => if kk = k then some v else p.loess kk }

/-- The running state of the `keysToProcess.forEach` loop: the evolving
point list and the `emaByKey` / `loessByKey` dictionaries. -/
structure SmoothAcc where
  pts : List ChartPoint
  emaByKey : Field → Option (List (Option Rat))
  loessByKey : Field → Option (List (Option Rat))

/-- The `if (showEMA) {...}` body for one key. -/
def smoothEmaStage (sE : Bool) (k : Field) (acc : SmoothAcc) : SmoothAcc :=
  if sE then
    { pts := List.zipWith (setEma k) acc.pts
        (calculateEMA (acc.pts.map fun p => p.orig k) 10)
    , emaByKey := fun kk =>
        if kk = k then some (calculateEMA (acc.pts.map fun p => p.orig k) 10)
        else acc.emaByKey kk
    , loessByKey := acc.loessByKey }
  else acc

/-- The `if (showLOESS) {...}` body for one key (computed over the
post-EMA-attachment series, as in the source). -/
def smoothLoessStage (sL : Bool) (k : Field) (acc : SmoothAcc) : SmoothAcc :=
  if sL then
    { pts := List.zipWith (setLoess k) acc.pts
        (calculateLOESS (acc.pts.map fun p => p.orig k) (3 / 10))
    , emaByKey := acc.emaByKey
    , loessByKey := fun kk =>
        if kk = k then some (calculateLOESS (acc.pts.map fun p => p.orig k) (3 / 10))
        else acc.loessByKey kk }
  else acc

/-- One iteration of the `keysToProcess.forEach` loop. -/
def smoothOneKey (sE sL : Bool) (acc : SmoothAcc) (k : Field) : SmoothAcc :=
  smoothLoessStage sL k (smoothEmaStage sE k acc)

/-- Steps 5 and 6 of the pipeline: the whole smoothing loop. -/
def runSmooth (sE sL : Bool) (keys : List Field) (pts0 : List ChartPoint) : SmoothAcc :=
  keys.foldl (smoothOneKey sE sL) ⟨pts0, fun _ => none, fun _ => none⟩

/-- `arr[arr.length - 1]`: the last element of a series (the source only
evaluates it on non-empty series; an empty one would give `undefined`,
rendered as `none`). -/
def listLast (l : List (Option Rat)) : Option Rat :=
  match l.getLast? with
  | some v => v
  | none => none

/-- One synthetic future point (`futurePoint` of the source): the five
original fields `null`, the generated future date, and per active key
the forecast entries — EMA forecasts repeat `emaByKey[key]`'s last
element via `predictEMA`, LOESS forecasts evaluate `predictLOESS` at the
point's horizon index. -/
def mkFuturePoint (sE sL : Bool) (keys : List Field) (acc : SmoothAcc)
    (idx : Nat) (fd : Ymd) : ChartPoint :=
  { date := some fd
  , orig := fun _ => JSVal.null
  , ema := fun k =>
      if sE ∧ k ∈ keys then
        match acc.emaByKey k with
        | some arr => some ((predictEMA (listLast arr) 3).getD idx none)
        | none => none
      else none
  , loess := fun k =>
      if sL ∧ k ∈ keys then
        match acc.loessByKey k with
        | some arr => some ((predictLOESS arr 3).getD idx none)
        | none => none
      else none }

/-- Step 7 of the pipeline: when a smoothing toggle is on and a
historical point exists, generate 3 future dates from the last point's
입찰일 and append the synthetic points.  An Invalid Date on the last
point would make `generateFutureDates` throw in `toISOString`. -/
def futureStep (sE sL : Bool) (keys : List Field) (acc : SmoothAcc) :
    Except Unit (List ChartPoint) :=
  if (sE || sL) && !acc.pts.isEmpty then
    match acc.pts.getLast? with
    | none => .ok acc.pts
    | some lastPt =>
      match lastPt.date with
      | none => .error ()
      | some d =>
        .ok (acc.pts ++ (List.range 3).map fun idx =>
          mkFuturePoint sE sL keys acc idx (futureYmd d (idx + 1)))
  else .ok acc.pts

/-- The whole `data` useMemo of `TrendChart`: sort, filter (which throws
on an unparseable 입찰일), mode conversion, per-key smoothing, and the
forecast extension. -/
def pipeline (raw : List BidRecord) (f t : String) (mode : Mode) (sE sL : Bool) :
    Except Unit (List ChartPoint) :=
  match filterStep f t (sortStep raw) with
  | .error e => .error e
  | .ok filtered =>
    futureStep sE sL (keysFor mode)
      (runSmooth sE sL (keysFor mode) (filtered.map (convertPoint mode)))

/-! ### Preservation of dates and original fields through smoothing -/

/-- The part of a chart point the smoothing loop never writes. -/
def core (p : ChartPoint) : Option Ymd × (Field → JSVal) := (p.date, p.orig)

lemma zipWith_core_preserved (g : ChartPoint → Option Rat → ChartPoint)
    (hg : ∀ p v, core (g p v) = core p) :
    ∀ (pts : List ChartPoint) (vals : List (Option Rat)),
      pts.length ≤ vals.length →
      (List.zipWith g pts vals).map core = pts.map core := by
  intro pts
  induction pts with
  | nil => intro vals _; simp
  | cons p ps ih =>
    intro vals hlen
    cases vals with
    | nil => simp at hlen
    | cons v vs =>
      simp only [List.zipWith_cons_cons, List.map_cons]
      rw [hg p v, ih vs (by simpa using hlen)]

lemma calculateLOESS_length (values : List JSVal) (bandwidth : Rat) :
    (calculateLOESS values bandwidth).length = values.length := by
  simp [calculateLOESS]

lemma smoothEmaStage_core (sE : Bool) (k : Field) (acc : SmoothAcc) :
    (smoothEmaStage sE k acc).pts.map core = acc.pts.map core := by
  unfold smoothEmaStage
  split
  · exact zipWith_core_preserved (setEma k) (fun p v => rfl) acc.pts _
      (by simp [calculateEMA, emaFold_length])
  · rfl

lemma smoothLoessStage_core (sL : Bool) (k : Field) (acc : SmoothAcc) :
    (smoothLoessStage sL k acc).pts.map core = acc.pts.map core := by
  unfold smoothLoessStage
  split
  · exact zipWith_core_preserved (setLoess k) (fun p v => rfl) acc.pts _
      (by simp [calculateLOESS_length])
  · rfl

lemma smoothOneKey_core (sE sL : Bool) (acc : SmoothAcc) (k : Field) :
    (smoothOneKey sE sL acc k).pts.map core = acc.pts.map core := by
  unfold smoothOneKey
  rw [smoothLoessStage_core, smoothEmaStage_core]

lemma foldl_smooth_core (sE sL : Bool) :
    ∀ (keys : List Field) (acc : SmoothAcc),
      (keys.foldl (smoothOneKey sE sL) acc).pts.map core = acc.pts.map core := by
  intro keys
  induction keys with
  | nil => intro acc; rfl
  | cons a as ih =>
    intro acc
    rw [List.foldl_cons, ih, smoothOneKey_core]

lemma proj_orig_of_core {xs ys : List ChartPoint}
    (h : xs.map core = ys.map core) (k : Field) :
    xs.map (fun p => p.orig k) = ys.map (fun p => p.orig k) := by
  have h2 := congrArg (List.map (fun c : Option Ymd × (Field → JSVal) => c.2 k)) h
  simpa [List.map_map, Function.comp, core] using h2

lemma proj_date_of_core {xs ys : List ChartPoint}
    (h : xs.map core = ys.map core) :
    xs.map (fun p => p.date) = ys.map (fun p => p.date) := by
  have h2 := congrArg (List.map (fun c : Option Ymd × (Field → JSVal) => c.1)) h
  simpa [List.map_map, Function.comp, core] using h2

/-! ### C3: behaviour on unparseable dates -/

/-- A record whose 입찰일 does not parse (`new Date(...)` is Invalid). -/
def badRec : BidRecord := ⟨none, fun _ => JSVal.null⟩

/-- C3 counterexample: the pipeline throws (propagates the `toISOString`
RangeError) on a list containing a record with an unparseable bid date,
whereas the claim asserts it never throws on such a record. -/
theorem pipeline_invalid_date_counterexample :
    pipeline [badRec] "" "" Mode.amount false false = .error () := rfl

/-- C3 (amended): the pipeline does not degrade unparseable dates to
neutral comparisons — `formatDate` calls `toISOString()` on the Invalid
Date and throws.  The pipeline run fails exactly when some input record
has an unparseable 입찰일, and succeeds otherwise. -/
theorem pipeline_error_iff (raw : List BidRecord) (f t : String) (mode : Mode)
    (sE sL : Bool) :
    pipeline raw f t mode sE sL = .error () ↔ ∃ r ∈ raw, r.bidDate = none := by
  have hperm : (sortStep raw).Perm raw := List.perm_insertionSort _ raw
  constructor
  · intro h
    cases hfs : filterStep f t (sortStep raw) with
    | error e =>
      cases e
      have := (filterStep_error_iff f t (sortStep raw)).mp hfs
      obtain ⟨r, hr, hrd⟩ := this
      exact ⟨r, hperm.mem_iff.mp hr, hrd⟩
    | ok filtered =>
      exfalso
      have hpipe : pipeline raw f t mode sE sL =
          futureStep sE sL (keysFor mode)
            (runSmooth sE sL (keysFor mode) (filtered.map (convertPoint mode))) := by
        unfold pipeline
        rw [hfs]
      rw [hpipe] at h
      set acc := runSmooth sE sL (keysFor mode) (filtered.map (convertPoint mode)) with hacc
      have hdates : acc.pts.map (fun p => p.date) =
          filtered.map (fun r => r.bidDate) := by
        have hc := foldl_smooth_core sE sL (keysFor mode)
          ⟨filtered.map (convertPoint mode), fun _ => none, fun _ => none⟩
        have hproj := proj_date_of_core hc
        rw [hacc]
        unfold runSmooth
        rw [hproj]
        simp [List.map_map, Function.comp, convertPoint]
      unfold futureStep at h
      split at h
      · cases hlast : acc.pts.getLast? with
        | none =>
          simp only [hlast] at h
          exact Except.noConfusion h
        | some lastPt =>
          simp only [hlast] at h
          cases hld : lastPt.date with
          | some d =>
            simp only [hld] at h
            exact Except.noConfusion h
          | none =>
            have hmem : lastPt ∈ acc.pts := by
              have hx : lastPt ∈ acc.pts.getLast? := Option.mem_def.mpr hlast
              obtain ⟨hne, hx2⟩ := List.mem_getLast?_eq_getLast hx
              rw [hx2]
              exact List.getLast_mem hne
            have hdm : lastPt.date ∈ acc.pts.map (fun p => p.date) :=
              List.mem_map_of_mem _ hmem
            rw [hdates] at hdm
            obtain ⟨r, hr, hrd⟩ := List.mem_map.mp hdm
            have hvr := filterStep_ok_valid f t (sortStep raw) filtered hfs r hr
            rw [hld] at hrd
            exact hvr hrd
      · exact Except.noConfusion h
  · rintro ⟨r, hr, hrd⟩
    have : filterStep f t (sortStep raw) = .error () :=
      (filterStep_error_iff f t (sortStep raw)).mpr
        ⟨r, hperm.mem_iff.mpr hr, hrd⟩
    unfold pipeline
    rw [this]

/-! ### C9: purity of the pipeline -/

/-- The relevant component state of `TrendChart`: the mode, the per-field
visibility checkboxes, the smoothing toggles, and the date window. -/
structure ComponentState where
  mode : Mode
  checked : Field → Bool
  showEMA : Bool
  showLOESS : Bool
  dateFrom : String
  dateTo : String

/-- The `data` value computed by the component in a given state. -/
def chartData (raw : List BidRecord) (s : ComponentState) :
    Except Unit (List ChartPoint) :=
  pipeline raw s.dateFrom s.dateTo s.mode s.showEMA s.showLOESS

/-- C9: the pipeline is a pure function of (raw records, date filters,
mode, smoothing toggles): two runs over states agreeing on those inputs —
even with different checkbox visibility state, and with no other state
carried between runs — produce identical output. -/
theorem pipeline_pure (raw : List BidRecord) (s₁ s₂ : ComponentState)
    (hf : s₁.dateFrom = s₂.dateFrom) (ht : s₁.dateTo = s₂.dateTo)
    (hm : s₁.mode = s₂.mode) (he : s₁.showEMA = s₂.showEMA)
    (hl : s₁.showLOESS = s₂.showLOESS) :
    chartData raw s₁ = chartData raw s₂ := by
  unfold chartData
  rw [hf, ht, hm, he, hl]

/-- Two states identical except for the visibility checkboxes. -/
def stateAllChecked : ComponentState :=
  ⟨Mode.amount, fun _ => true, true, false, "", ""⟩

/-- Same pipeline inputs, opposite checkbox state. -/
def stateNoneChecked : ComponentState :=
  ⟨Mode.amount, fun _ => false, true, false, "", ""⟩

/-- Witness for C9: flipping every checkbox leaves the data unchanged. -/
theorem pipeline_pure_witness :
    (stateAllChecked.dateFrom = stateNoneChecked.dateFrom
      ∧ stateAllChecked.dateTo = stateNoneChecked.dateTo
      ∧ stateAllChecked.mode = stateNoneChecked.mode
      ∧ stateAllChecked.showEMA = stateNoneChecked.showEMA
      ∧ stateAllChecked.showLOESS = stateNoneChecked.showLOESS)
    ∧ chartData [demoRecMid] stateAllChecked = chartData [demoRecMid] stateNoneChecked :=
  ⟨⟨rfl, rfl, rfl, rfl, rfl⟩,
    pipeline_pure [demoRecMid] stateAllChecked stateNoneChecked rfl rfl rfl rfl rfl⟩

/-! ### C2: the synthetic future points -/

lemma smoothEmaStage_emaByKey_self (sE : Bool) (k : Field) (acc : SmoothAcc) :
    (smoothEmaStage sE k acc).emaByKey k =
      (if sE then some (calculateEMA (acc.pts.map fun p => p.orig k) 10)
       else acc.emaByKey k) := by
  unfold smoothEmaStage
  by_cases h : sE = true <;> simp [h]

lemma smoothEmaStage_emaByKey_other (sE : Bool) (k : Field) (acc : SmoothAcc)
    (kk : Field) (h : kk ≠ k) :
    (smoothEmaStage sE k acc).emaByKey kk = acc.emaByKey kk := by
  unfold smoothEmaStage
  by_cases hs : sE = true <;> simp [hs, h]

lemma smoothEmaStage_loessByKey (sE : Bool) (k : Field) (acc : SmoothAcc) :
    (smoothEmaStage sE k acc).loessByKey = acc.loessByKey := by
  unfold smoothEmaStage
  by_cases hs : sE = true <;> simp [hs]

lemma smoothLoessStage_emaByKey (sL : Bool) (k : Field) (acc : SmoothAcc) :
    (smoothLoessStage sL k acc).emaByKey = acc.emaByKey := by
  unfold smoothLoessStage
  by_cases hs : sL = true <;> simp [hs]

lemma smoothLoessStage_loessByKey_self (sL : Bool) (k : Field) (acc : SmoothAcc) :
    (smoothLoessStage sL k acc).loessByKey k =
      (if sL then some (calculateLOESS (acc.pts.map fun p => p.orig k) (3 / 10))
       else acc.loessByKey k) := by
  unfold smoothLoessStage
  by_cases hs : sL = true <;> simp [hs]

lemma smoothLoessStage_loessByKey_other (sL : Bool) (k : Field) (acc : SmoothAcc)
    (kk : Field) (h : kk ≠ k) :
    (smoothLoessStage sL k acc).loessByKey kk = acc.loessByKey kk := by
  unfold smoothLoessStage
  by_cases hs : sL = true <;> simp [hs, h]

lemma smoothOneKey_emaByKey_self (sE sL : Bool) (acc : SmoothAcc) (k : Field) :
    (smoothOneKey sE sL acc k).emaByKey k =
      (if sE then some (calculateEMA (acc.pts.map fun p => p.orig k) 10)
       else acc.emaByKey k) := by
  unfold smoothOneKey
  rw [smoothLoessStage_emaByKey, smoothEmaStage_emaByKey_self]

lemma smoothOneKey_loessByKey_self (sE sL : Bool) (acc : SmoothAcc) (k : Field) :
    (smoothOneKey sE sL acc k).loessByKey k =
      (if sL then some (calculateLOESS (acc.pts.map fun p => p.orig k) (3 / 10))
       else acc.loessByKey k) := by
  unfold smoothOneKey
  rw [smoothLoessStage_loessByKey_self,
    proj_orig_of_core (smoothEmaStage_core sE k acc) k]
  cases hs : sL with
  | true => rfl
  | false =>
    simp only [if_neg (by simp : ¬ (false = true))]
    rw [← smoothEmaStage_loessByKey sE k acc]

lemma smoothOneKey_byKey_other (sE sL : Bool) (acc : SmoothAcc) (k kk : Field)
    (h : kk ≠ k) :
    (smoothOneKey sE sL acc k).emaByKey kk = acc.emaByKey kk
    ∧ (smoothOneKey sE sL acc k).loessByKey kk = acc.loessByKey kk := by
  unfold smoothOneKey
  constructor
  · rw [smoothLoessStage_emaByKey, smoothEmaStage_emaByKey_other _ _ _ _ h]
  · rw [smoothLoessStage_loessByKey_other _ _ _ _ h]
    rw [smoothEmaStage_loessByKey]

lemma foldl_smooth_byKey_notmem (sE sL : Bool) :
    ∀ (keys : List Field) (acc : SmoothAcc) (k : Field), k ∉ keys →
      (keys.foldl (smoothOneKey sE sL) acc).emaByKey k = acc.emaByKey k
      ∧ (keys.foldl (smoothOneKey sE sL) acc).loessByKey k = acc.loessByKey k := by
  intro keys
  induction keys with
  | nil => intro acc k _; exact ⟨rfl, rfl⟩
  | cons a as ih =>
    intro acc k hk
    have hka : k ≠ a := fun h => hk (h ▸ List.mem_cons_self a as)
    have has : k ∉ as := fun h => hk (List.mem_cons_of_mem a h)
    rw [List.foldl_cons]
    obtain ⟨h1, h2⟩ := ih (smoothOneKey sE sL acc a) k has
    obtain ⟨h3, h4⟩ := smoothOneKey_byKey_other sE sL acc a k hka
    exact ⟨h1.trans h3, h2.trans h4⟩

lemma foldl_smooth_byKey_mem (sE sL : Bool) :
    ∀ (keys : List Field) (acc : SmoothAcc) (k : Field), k ∈ keys → keys.Nodup →
      (keys.foldl (smoothOneKey sE sL) acc).emaByKey k =
        (if sE then some (calculateEMA (acc.pts.map fun p => p.orig k) 10)
         else acc.emaByKey k)
      ∧ (keys.foldl (smoothOneKey sE sL) acc).loessByKey k =
        (if sL then some (calculateLOESS (acc.pts.map fun p => p.orig k) (3 / 10))
         else acc.loessByKey k) := by
  intro keys
  induction keys with
  | nil => intro acc k hk _; simp at hk
  | cons a as ih =>
    intro acc k hk hnd
    rw [List.foldl_cons]
    rcases List.mem_cons.mp hk with rfl | hmem
    · have has : k ∉ as := (List.nodup_cons.mp hnd).1
      obtain ⟨h1, h2⟩ := foldl_smooth_byKey_notmem sE sL as (smoothOneKey sE sL acc k) k has
      rw [h1, h2, smoothOneKey_emaByKey_self, smoothOneKey_loessByKey_self]
      exact ⟨rfl, rfl⟩
    · have hka : k ≠ a := fun h => (List.nodup_cons.mp hnd).1 (h ▸ hmem)
      obtain ⟨h1, h2⟩ := ih (smoothOneKey sE sL acc a) k hmem (List.nodup_cons.mp hnd).2
      obtain ⟨h3, h4⟩ := smoothOneKey_byKey_other sE sL acc a k hka
      rw [h1, h2, h3, h4, proj_orig_of_core (smoothOneKey_core sE sL acc a) k]
      exact ⟨rfl, rfl⟩

lemma runSmooth_byKey (sE sL : Bool) (keys : List Field) (pts0 : List ChartPoint)
    (k : Field) (hk : k ∈ keys) (hnd : keys.Nodup) :
    (runSmooth sE sL keys pts0).emaByKey k =
      (if sE then some (calculateEMA (pts0.map fun p => p.orig k) 10) else none)
    ∧ (runSmooth sE sL keys pts0).loessByKey k =
      (if sL then some (calculateLOESS (pts0.map fun p => p.orig k) (3 / 10)) else none) :=
  foldl_smooth_byKey_mem sE sL keys ⟨pts0, fun _ => none, fun _ => none⟩ k hk hnd

lemma keysFor_nodup (mode : Mode) : (keysFor mode).Nodup := by
  cases mode <;> decide

lemma runSmooth_dates (sE sL : Bool) (mode : Mode) (filtered : List BidRecord) :
    (runSmooth sE sL (keysFor mode) (filtered.map (convertPoint mode))).pts.map
        (fun p => p.date) =
      filtered.map (fun r => r.bidDate) := by
  have hc := foldl_smooth_core sE sL (keysFor mode)
    ⟨filtered.map (convertPoint mode), fun _ => none, fun _ => none⟩
  have hproj := proj_date_of_core hc
  unfold runSmooth
  rw [hproj]
  simp [List.map_map, Function.comp, convertPoint]

lemma getD_replicate_lt {x : Option Rat} :
    ∀ (n i : Nat), i < n → (List.replicate n x).getD i none = x := by
  intro n
  induction n with
  | zero => intro i h; exact absurd h (Nat.not_lt_zero i)
  | succ m ih =>
    intro i h
    cases i with
    | zero => rfl
    | succ j =>
      rw [List.replicate_succ, List.getD_cons_succ]
      exact ih j (by omega)

/-- C2 (amended): when a smoothing toggle is on and at least one
historical point survives the filter, the pipeline appends exactly 3
synthetic future points keyed by the generated future dates; their five
original fields are all `null`; per active field, the EMA forecast entry
repeats the final element of that field's EMA series (which is `null`
when the last historical value is `null` — not the last valid output),
while the LOESS forecast entry evaluates `predictLOESS` (which does use
the last valid outputs) at the point's horizon index; fields of inactive
smoothers carry no forecast entry. -/
theorem trend_future_points (raw : List BidRecord) (f t : String) (mode : Mode)
    (sE sL : Bool) (filtered : List BidRecord) (d : Ymd)
    (hfil : filterStep f t (sortStep raw) = .ok filtered)
    (hne : filtered.isEmpty = false)
    (hEL : (sE || sL) = true)
    (hd : (filtered.getLast?).bind (fun r => r.bidDate) = some d) :
    ∃ l : List ChartPoint, pipeline raw f t mode sE sL = .ok l
      ∧ l.length = filtered.length + 3
      ∧ (∀ idx : Nat, idx < 3 → ∃ p : ChartPoint,
          l.get? (filtered.length + idx) = some p
          ∧ (∀ k, p.orig k = JSVal.null)
          ∧ p.date = some (futureYmd d (idx + 1))
          ∧ (∀ k ∈ keysFor mode,
              (sE = true → p.ema k = some (listLast (calculateEMA
                ((filtered.map (convertPoint mode)).map fun q => q.orig k) 10)))
              ∧ (sE = false → p.ema k = none)
              ∧ (sL = true → p.loess k = some ((predictLOESS (calculateLOESS
                  ((filtered.map (convertPoint mode)).map fun q => q.orig k) (3 / 10))
                  3).getD idx none))
              ∧ (sL = false → p.loess k = none))) := by
  set pts0 := filtered.map (convertPoint mode) with hpts0
  set acc := runSmooth sE sL (keysFor mode) pts0 with hacc
  have hcore := foldl_smooth_core sE sL (keysFor mode)
    ⟨pts0, fun _ => none, fun _ => none⟩
  have hlen : acc.pts.length = filtered.length := by
    have hl := congrArg List.length hcore
    simp only [List.length_map] at hl
    rw [hacc]
    unfold runSmooth
    simpa [hpts0] using hl
  have hdates : acc.pts.map (fun p => p.date) = filtered.map (fun r => r.bidDate) := by
    rw [hacc, hpts0]
    exact runSmooth_dates sE sL mode filtered
  have hfne : filtered ≠ [] := by
    intro hnil
    rw [hnil] at hne
    simp at hne
  have hane : acc.pts ≠ [] := by
    intro hnil
    rw [hnil] at hlen
    exact hfne (List.length_eq_zero.mp hlen.symm)
  have haie : acc.pts.isEmpty = false := by
    cases hie : acc.pts.isEmpty
    · rfl
    · exact absurd (List.isEmpty_iff.mp hie) hane
  obtain ⟨r0, hr0, hr0d⟩ := Option.bind_eq_some.mp hd
  have hlastdate : ∃ lastPt : ChartPoint,
      acc.pts.getLast? = some lastPt ∧ lastPt.date = some d := by
    have hm := List.getLast?_map (fun p => p.date) acc.pts
    rw [hdates, List.getLast?_map, hr0] at hm
    obtain ⟨lastPt, hlp, hlpd⟩ := Option.map_eq_some'.mp hm.symm
    exact ⟨lastPt, hlp, by rw [hlpd]; exact hr0d⟩
  obtain ⟨lastPt, hlast, hld⟩ := hlastdate
  have hguard : ((sE || sL) && !acc.pts.isEmpty) = true := by
    rw [hEL, haie]
    rfl
  have hfut : futureStep sE sL (keysFor mode) acc =
      .ok (acc.pts ++ (List.range 3).map fun idx =>
        mkFuturePoint sE sL (keysFor mode) acc idx (futureYmd d (idx + 1))) := by
    unfold futureStep
    rw [if_pos hguard]
    simp only [hlast, hld]
  have hpipe : pipeline raw f t mode sE sL =
      futureStep sE sL (keysFor mode) acc := by
    unfold pipeline
    rw [hfil]
  refine ⟨acc.pts ++ (List.range 3).map fun idx =>
    mkFuturePoint sE sL (keysFor mode) acc idx (futureYmd d (idx + 1)),
    by rw [hpipe, hfut], ?_, ?_⟩
  · rw [List.length_append, hlen]
    simp
  · intro idx hidx
    refine ⟨mkFuturePoint sE sL (keysFor mode) acc idx (futureYmd d (idx + 1)), ?_, ?_, rfl, ?_⟩
    · rw [List.get?_append_right (by omega : acc.pts.length ≤ filtered.length + idx),
        hlen]
      have : filtered.length + idx - filtered.length = idx := by omega
      rw [this, List.get?_map, List.get?_range hidx]
      rfl
    · intro k
      rfl
    · intro k hk
      obtain ⟨hbe, hbl⟩ := runSmooth_byKey sE sL (keysFor mode) pts0 k hk
        (keysFor_nodup mode)
      rw [← hacc] at hbe hbl
      refine ⟨?_, ?_, ?_, ?_⟩
      · intro hsE
        show (if sE = true ∧ k ∈ keysFor mode then _ else none) = _
        rw [if_pos ⟨hsE, hk⟩, hbe, if_pos hsE]
        show some ((predictEMA (listLast (calculateEMA
          (pts0.map fun p => p.orig k) 10)) 3).getD idx none) = _
        unfold predictEMA
        rw [getD_replicate_lt 3 idx hidx, hpts0]
      · intro hsE
        show (if sE = true ∧ k ∈ keysFor mode then _ else none) = none
        rw [if_neg (by simp [hsE])]
      · intro hsL
        show (if sL = true ∧ k ∈ keysFor mode then _ else none) = _
        rw [if_pos ⟨hsL, hk⟩, hbl, if_pos hsL, hpts0]
      · intro hsL
        show (if sL = true ∧ k ∈ keysFor mode then _ else none) = none
        rw [if_neg (by simp [hsL])]

/-- A record with a valid 낙찰금액 value. -/
def demoRec1 : BidRecord :=
  ⟨some ⟨2024, 0, 1⟩, fun k =>
    match k with
    | .winningPrice => JSVal.num 100
    | _ => JSVal.null⟩

/-- A later record whose 낙찰금액 is `null`. -/
def demoRec2 : BidRecord := ⟨some ⟨2024, 0, 2⟩, fun _ => JSVal.null⟩

/-- A two-record history ending in a `null` value. -/
def demoRaw : List BidRecord := [demoRec1, demoRec2]

/-- The `<field>_EMA` entry of point `i` of a pipeline result. -/
def pipelinePointEma (res : Except Unit (List ChartPoint)) (i : Nat) (k : Field) :
    Option (Option (Option Rat)) :=
  match res with
  | .ok l => (l.get? i).map fun p => p.ema k
  | .error _ => none

/-- C2 counterexample: with EMA enabled on a history whose last 낙찰금액
is `null`, the first synthetic future point carries `낙찰금액_EMA = null`
(the code repeats the EMA series' final element), although the series'
last valid (non-null) output is 100 — the value the claim prescribes for
the forecast. -/
theorem trend_future_ema_counterexample :
    pipelinePointEma (pipeline demoRaw "" "" Mode.amount true false) 2
      Field.winningPrice = some (some none)
    ∧ lastValid (calculateEMA [JSVal.num 100, JSVal.null] 10) = some 100
    ∧ (some (some (none : Option Rat)) : Option (Option (Option Rat))) ≠
        some (some (some (100 : Rat))) := by
  refine ⟨rfl, rfl, by decide⟩

/-- Witness for C2 (amended): the two-record history with EMA on. -/
theorem trend_future_points_witness :
    (filterStep "" "" (sortStep demoRaw) = .ok demoRaw
      ∧ demoRaw.isEmpty = false
      ∧ (true || false) = true
      ∧ (demoRaw.getLast?).bind (fun r => r.bidDate) = some ⟨2024, 0, 2⟩)
    ∧ (∃ l : List ChartPoint, pipeline demoRaw "" "" Mode.amount true false = .ok l
        ∧ l.length = demoRaw.length + 3
        ∧ (∀ idx : Nat, idx < 3 → ∃ p : ChartPoint,
            l.get? (demoRaw.length + idx) = some p
            ∧ (∀ k, p.orig k = JSVal.null)
            ∧ p.date = some (futureYmd ⟨2024, 0, 2⟩ (idx + 1))
            ∧ (∀ k ∈ keysFor Mode.amount,
                (true = true → p.ema k = some (listLast (calculateEMA
                  ((demoRaw.map (convertPoint Mode.amount)).map fun q => q.orig k) 10)))
                ∧ (true = false → p.ema k = none)
                ∧ (false = true → p.loess k = some ((predictLOESS (calculateLOESS
                    ((demoRaw.map (convertPoint Mode.amount)).map fun q => q.orig k)
                    (3 / 10)) 3).getD idx none))
                ∧ (false = false → p.loess k = none)))) :=
  ⟨⟨rfl, rfl, rfl, rfl⟩,
    trend_future_points demoRaw "" "" Mode.amount true false demoRaw ⟨2024, 0, 2⟩
      rfl rfl rfl rfl⟩

end NaraChart
